import Mathlib

set_option maxRecDepth 100000

/-!
# ABI codec verification

Shallow embedding of the word-oriented ABI codec used by the contract
binding generator (`abigen/src/function.rs` and its generated call/event
wrappers, exercised by `abigen-tests/src/lib.rs`).

The recursive type model, word codec, tuple codec (head/tail offset
scheme), selector/topic matchers and the call/log adapters are modelled
from the specification, since the codec implementation itself is an
external collaborator of the repository under verification; the generated
function wrappers (output decoding, input encoding, `call`) are embedded
from `abigen/src/function.rs`.

Bytes are `Nat` values (< 256 on every path the codec produces), buffers
are `List Nat`, and 256-bit signed values are `Int` with explicit
`% 2^256` arithmetic where the two's-complement representation matters.
-/

/-- Modelled from the spec: the recursive ABI type model, `ParamType`
(spec section 3), mirroring `ethabi::ParamType`. -/
inductive ParamType where
  | address
  | bool
  | int (bits : Nat)
  | uint (bits : Nat)
  | fixedBytes (n : Nat)
  | bytes
  | string
  | fixedArray (elem : ParamType) (n : Nat)
  | array (elem : ParamType)
  | tuple (elems : List ParamType)

/-- Modelled from the spec: the value tree `Token` (spec section 3),
mirroring `ethabi::Token`.  `string` carries the raw text bytes. -/
inductive Token where
  | address (a : List Nat)
  | bool (b : Bool)
  | int (v : Int)
  | uint (v : Nat)
  | fixedBytes (b : List Nat)
  | bytes (b : List Nat)
  | string (s : List Nat)
  | fixedArray (ts : List Token)
  | array (ts : List Token)
  | tuple (ts : List Token)

/-- Big-endian bytes of `v`, exactly `w` bytes wide (value taken mod `256^w`). -/
def beBytes : Nat → Nat → List Nat
  | 0, _ => []
  | w + 1, v => beBytes w (v / 256) ++ [v % 256]

/-- Big-endian value of a byte list. -/
def beValue (bs : List Nat) : Nat :=
  bs.foldl (fun acc b => 256 * acc + b) 0

/-- Right-pad a byte string with zero bytes up to the next 32-byte boundary. -/
def padTo32 (b : List Nat) : List Nat :=
  b ++ List.replicate ((32 - b.length % 32) % 32) 0

/-- Read `n` bytes of `buf` starting at position `p`; `none` when the read
would run past the end of the buffer. -/
def readBytes (buf : List Nat) (p n : Nat) : Option (List Nat) :=
  if p + n ≤ buf.length then some ((buf.drop p).take n) else none

mutual

/-- Modelled from the spec: the staticness classifier `is_dynamic`
(spec section 4.1). -/
def is_dynamic : ParamType → Bool
  | .bytes => true
  | .string => true
  | .array _ => true
  | .fixedArray e _ => is_dynamic e
  | .tuple ts => anyDyn ts
  | _ => false

/-- Whether any element of a type list is dynamic. -/
def anyDyn : List ParamType → Bool
  | [] => false
  | t :: ts => is_dynamic t || anyDyn ts

end

mutual

/-- Number of bytes a static type occupies inline (meaningful when the
type is static; every static type is a whole number of 32-byte words). -/
def static_size : ParamType → Nat
  | .fixedArray e n => n * static_size e
  | .tuple ts => sumStatic ts
  | _ => 32

/-- Sum of the static sizes of a type list. -/
def sumStatic : List ParamType → Nat
  | [] => 0
  | t :: ts => static_size t + sumStatic ts

end

/-- Size of a type's head slot: 32 bytes (an offset word) when dynamic,
its full static size when static. -/
def head_size (t : ParamType) : Nat :=
  if is_dynamic t then 32 else static_size t

/-- Total head-region size of a tuple with the given member types. -/
def headBytes : List ParamType → Nat
  | [] => 0
  | t :: ts => head_size t + headBytes ts

/-- Valid declared integer bit-width: a multiple of 8 in {8, ..., 256}. -/
def bitsOk (bits : Nat) : Bool :=
  decide (0 < bits) && decide (bits ≤ 256) && (bits % 8 == 0)

mutual

/-- Modelled from the spec: shape/range conformance of a token to its
paired type (spec section 3 invariant plus the width checks of 4.2). -/
def conforms : Token → ParamType → Bool
  | .address a, .address => a.length == 20
  | .bool _, .bool => true
  | .int v, .int bits =>
      bitsOk bits && decide (-((2 : Int) ^ (bits - 1)) ≤ v)
        && decide (v < (2 : Int) ^ (bits - 1))
  | .uint v, .uint bits => bitsOk bits && decide (v < 2 ^ bits)
  | .fixedBytes b, .fixedBytes n =>
      decide (0 < n) && decide (n ≤ 32) && (b.length == n)
  | .bytes _, .bytes => true
  | .string _, .string => true
  | .fixedArray toks, .fixedArray e n => (toks.length == n) && conformsElems toks e
  | .array toks, .array e => conformsElems toks e
  | .tuple toks, .tuple ts => conformsList toks ts
  | _, _ => false

/-- All tokens of a list conform to a single element type. -/
def conformsElems : List Token → ParamType → Bool
  | [], _ => true
  | tok :: toks, e => conforms tok e && conformsElems toks e

/-- Pointwise conformance of a token list to a type list (equal lengths). -/
def conformsList : List Token → List ParamType → Bool
  | [], [] => true
  | tok :: toks, t :: ts => conforms tok t && conformsList toks ts
  | _, _ => false

end

mutual

/-- Every array count and bytes/string length in the token is representable
in a 32-byte word (mirrors the in-memory size limits of the source's `Vec`
values, which a length/count word must reproduce exactly). -/
def countsOk : Token → Bool
  | .bytes b => decide (b.length < 2 ^ 256)
  | .string s => decide (s.length < 2 ^ 256)
  | .array ts => decide (ts.length < 2 ^ 256) && countsOkList ts
  | .fixedArray ts => countsOkList ts
  | .tuple ts => countsOkList ts
  | _ => true

/-- `countsOk` over a token list. -/
def countsOkList : List Token → Bool
  | [] => true
  | t :: ts => countsOk t && countsOkList ts

end

/-- Modelled from the spec: `encode_word` (spec section 4.2).  Encodes a
single-word static value; `none` on a shape mismatch, a schema error, or
an out-of-range magnitude. -/
def encode_word : Token → ParamType → Option (List Nat)
  | .address a, .address => some (List.replicate (32 - a.length) 0 ++ a)
  | .bool b, .bool => some (beBytes 32 (if b then 1 else 0))
  | .int v, .int bits =>
      if bitsOk bits && decide (-((2 : Int) ^ (bits - 1)) ≤ v)
          && decide (v < (2 : Int) ^ (bits - 1)) then
        some (beBytes 32 (v % (2 : Int) ^ 256).toNat)
      else none
  | .uint v, .uint bits =>
      if bitsOk bits && decide (v < 2 ^ bits) then some (beBytes 32 v) else none
  | .fixedBytes b, .fixedBytes n =>
      if decide (0 < n) && decide (n ≤ 32) && (b.length == n) then
        some (b ++ List.replicate (32 - n) 0)
      else none
  | _, _ => none

/-- Modelled from the spec: `decode_word` (spec section 4.2), the inverse
of `encode_word` on a 32-byte word; for `Int` the unsigned big-endian
value `u` yields `u - 2^256` when `u ≥ 2^255` and `u` otherwise. -/
def decode_word (t : ParamType) (w : List Nat) : Option Token :=
  match t with
  | .address => some (.address (w.drop 12))
  | .bool => some (.bool (beValue w != 0))
  | .int _ =>
      some (.int (if 2 ^ 255 ≤ beValue w then (beValue w : Int) - 2 ^ 256
                  else (beValue w : Int)))
  | .uint _ => some (.uint (beValue w))
  | .fixedBytes n => some (.fixedBytes (w.take n))
  | _ => none

mutual

/-- Modelled from the spec: the value-level encoder underlying
`encode_tuple` (spec section 4.3).  For a dynamic value this is its tail
encoding; for a static value its inline word sequence. -/
def encodeValue : Token → ParamType → Option (List Nat)
  | .bytes b, .bytes => some (beBytes 32 b.length ++ padTo32 b)
  | .string s, .string => some (beBytes 32 s.length ++ padTo32 s)
  | .array toks, .array e =>
      (encodeSeq (headBytes (List.replicate toks.length e)) toks
          (List.replicate toks.length e) 0).map
        (fun p => beBytes 32 toks.length ++ (p.1 ++ p.2))
  | .fixedArray toks, .fixedArray e _ =>
      (encodeSeq (headBytes (List.replicate toks.length e)) toks
          (List.replicate toks.length e) 0).map (fun p => p.1 ++ p.2)
  | .tuple toks, .tuple ts =>
      (encodeSeq (headBytes ts) toks ts 0).map (fun p => p.1 ++ p.2)
  | tok, t => encode_word tok t

/-- Modelled from the spec: the head/tail accumulation of `encode_tuple`
(spec section 4.3, steps 1-3).  `hs` is the full head size of the tuple
being encoded and `tLen` the number of tail bytes already emitted; returns
the remaining head region and tail buffer. -/
def encodeSeq (hs : Nat) : List Token → List ParamType → Nat → Option (List Nat × List Nat)
  | [], _, _ => some ([], [])
  | tok :: toks, t :: ts, tLen =>
      if is_dynamic t then
        (encodeValue tok t).bind fun enc =>
          (encodeSeq hs toks ts (tLen + enc.length)).map fun p =>
            (beBytes 32 (hs + tLen) ++ p.1, enc ++ p.2)
      else
        (encodeValue tok t).bind fun enc =>
          (encodeSeq hs toks ts tLen).map fun p => (enc ++ p.1, p.2)
  | _ :: _, [], _ => none

end

/-- Modelled from the spec: `encode_tuple` (spec section 4.3, step 4):
head region followed by tail buffer. -/
def encode_tuple (toks : List Token) (ts : List ParamType) : Option (List Nat) :=
  (encodeSeq (headBytes ts) toks ts 0).map fun p => p.1 ++ p.2

mutual

/-- Decode nesting fuel sufficient for one value of the given type. -/
def reqV : ParamType → Nat
  | .array e => 1 + reqV e
  | .fixedArray e _ => 1 + reqV e
  | .tuple ts => 1 + reqList ts
  | _ => 1

/-- Decode nesting fuel sufficient for every member of a type list. -/
def reqList : List ParamType → Nat
  | [] => 0
  | t :: ts => max (reqV t) (reqList ts)

end

/-- Modelled from the spec: the per-member cursor walk of `decode_tuple`
(spec section 4.3 decode, steps 1-3), parameterised by the value decoder
`dv`.  `B` is the base position of the tuple's own head and `C` the
current cursor. -/
def decodeSeqWith (dv : List Nat → Nat → ParamType → Option Token)
    (buf : List Nat) (B : Nat) : Nat → List ParamType → Option (List Token)
  | _, [] => some []
  | C, t :: ts =>
      if is_dynamic t then
        (readBytes buf C 32).bind fun w =>
          (dv buf (B + beValue w) t).bind fun tok =>
            (decodeSeqWith dv buf B (C + 32) ts).map (tok :: ·)
      else
        (dv buf C t).bind fun tok =>
          (decodeSeqWith dv buf B (C + head_size t) ts).map (tok :: ·)

/-- Modelled from the spec: decode a single value of type `t` whose own
data begins at position `P` (spec section 4.3 decode, step 3), with fuel
bounding the type-nesting depth. -/
def decodeValue : Nat → List Nat → Nat → ParamType → Option Token
  | 0, _, _, _ => none
  | fuel + 1, buf, P, t =>
      match t with
      | .bytes =>
          (readBytes buf P 32).bind fun lw =>
            (readBytes buf (P + 32) (beValue lw)).map .bytes
      | .string =>
          (readBytes buf P 32).bind fun lw =>
            (readBytes buf (P + 32) (beValue lw)).map .string
      | .array e =>
          (readBytes buf P 32).bind fun cw =>
            (decodeSeqWith (decodeValue fuel) buf (P + 32) (P + 32)
                (List.replicate (beValue cw) e)).map .array
      | .fixedArray e n =>
          (decodeSeqWith (decodeValue fuel) buf P P (List.replicate n e)).map .fixedArray
      | .tuple ts =>
          (decodeSeqWith (decodeValue fuel) buf P P ts).map .tuple
      | t => (readBytes buf P 32).bind fun w => decode_word t w

/-- Modelled from the spec: `decode_tuple` (spec section 4.3 decode),
decoding `buf` against `ts` with the tuple's head at position 0. -/
def decode_tuple (buf : List Nat) (ts : List ParamType) : Option (List Token) :=
  decodeSeqWith (decodeValue (reqList ts)) buf 0 0 ts

/-- A call payload: selector-prefixed input bytes and raw return data
(spec section 3, `Call`; `pb::eth::v2::Call` in the tests). -/
structure Call where
  input : List Nat
  return_data : List Nat

/-- An event log: 32-byte topic words and the non-indexed data buffer
(spec section 3, `Log`; `pb::eth::v2::Log` in the tests). -/
structure Log where
  topics : List (List Nat)
  data : List Nat

/-- A function descriptor as recreated by the generated `function()`
(from `abigen/src/function.rs`): input/output types plus the 4-byte
selector derived externally from the canonical signature hash. -/
structure AbiFunction where
  selector : List Nat
  inputs : List ParamType
  outputs : List ParamType

/-- An event descriptor: the full 32-byte signature hash (topic0) and the
ordered (type, indexed) parameter pairs. -/
structure AbiEvent where
  topic0 : List Nat
  params : List (ParamType × Bool)

/-- Number of indexed parameters of an event. -/
def indexedCount (ev : AbiEvent) : Nat :=
  (ev.params.filter (fun p => p.2)).length

/-- Modelled from the spec: `match_call` (spec section 4.4) — the input
carries at least 4 bytes and its leading 4 bytes equal the selector. -/
def match_call (f : AbiFunction) (call : Call) : Bool :=
  if 4 ≤ call.input.length then call.input.take 4 == f.selector else false

/-- Modelled from the spec: `match_log` (spec section 4.4) — topics
non-empty, topic0 equal to the event hash, and topic count equal to one
plus the number of indexed parameters. -/
def match_log (ev : AbiEvent) (log : Log) : Bool :=
  match log.topics with
  | [] => false
  | t0 :: rest => t0 == ev.topic0 && rest.length == indexedCount ev

/-- The generated `encode_input` (`abigen/src/function.rs`, generated
module): tokenized arguments passed to the tuple encoder, selector
prepended. -/
def encode_input (f : AbiFunction) (toks : List Token) : Option (List Nat) :=
  (encode_tuple toks f.inputs).map (f.selector ++ ·)

/-- The generated `call` (`abigen/src/function.rs`, generated module):
the same tokenization and tuple encoding as `encode_input`, paired with
an output `Decoder` holding the same descriptor. -/
def fn_call (f : AbiFunction) (toks : List Token) : Option (List Nat) × AbiFunction :=
  ((encode_tuple toks f.inputs).map (f.selector ++ ·), f)

/-- Decoded function output shape (`Outputs::result` in
`abigen/src/function.rs`): `()` for no outputs, a bare value for one
output, a tuple of values otherwise. -/
inductive OutputVal where
  | unit
  | single (t : Token)
  | tupleVal (ts : List Token)

/-- The generated output `Decoder::decode` (`output_implementation` in
`abigen/src/function.rs`): with no outputs the buffer is ignored and
`Ok(())` returned; with one output the decoded singleton is unwrapped;
otherwise all decoded outputs are tupled in order. -/
def decode_output (f : AbiFunction) (output : List Nat) : Option OutputVal :=
  match f.outputs with
  | [] => some .unit
  | [t] => (decode_tuple output [t]).bind fun toks => toks.head?.map .single
  | ts => (decode_tuple output ts).map .tupleVal

/-- The generated `output_call`: decode a call's return data with the
function's output decoder. -/
def output_call (f : AbiFunction) (call : Call) : Option OutputVal :=
  decode_output f call.return_data

/-- Modelled from the spec: decoding of a single indexed parameter from
its 32-byte topic word (spec section 4.5): a dynamic type's topic holds a
content hash surfaced as an opaque 32-byte value, a static type decodes
by the word codec. -/
def decodeTopic (t : ParamType) (w : List Nat) : Option Token :=
  if w.length == 32 then
    if is_dynamic t then some (.fixedBytes w) else decode_word t w
  else none

/-- Merge indexed topic words and decoded data tokens back into
declaration order (spec section 4.5). -/
def decode_event_params : List (ParamType × Bool) → List (List Nat) → List Token →
    Option (List Token)
  | [], [], [] => some []
  | (t, true) :: ps, w :: ws, ds =>
      (decodeTopic t w).bind fun tok =>
        (decode_event_params ps ws ds).map (tok :: ·)
  | (_, false) :: ps, ws, d :: ds =>
      (decode_event_params ps ws ds).map (d :: ·)
  | _, _, _ => none

/-- Modelled from the spec: event `decode(log)` (spec section 4.5):
non-indexed parameters decode from `log.data` as a tuple, indexed
parameters from `topics[1..]` one word each, results in declaration
order. -/
def decode_event (ev : AbiEvent) (log : Log) : Option (List Token) :=
  (decode_tuple log.data ((ev.params.filter (fun p => !p.2)).map (fun p => p.1))).bind
    fun ds => decode_event_params ev.params (log.topics.drop 1) ds

mutual

/-- Structural weight of a token, the induction measure for the codec
proofs. -/
def tokenWeight : Token → Nat
  | .fixedArray ts => 1 + listTokenWeight ts
  | .array ts => 1 + listTokenWeight ts
  | .tuple ts => 1 + listTokenWeight ts
  | _ => 1

/-- `tokenWeight` summed over a list, plus one per element. -/
def listTokenWeight : List Token → Nat
  | [] => 0
  | t :: ts => tokenWeight t + 1 + listTokenWeight ts

end

theorem beBytes_length (w v : Nat) : (beBytes w v).length = w := by
  induction w generalizing v with
  | zero => rfl
  | succ w ih => simp [beBytes, ih]

theorem beValue_snoc (xs : List Nat) (b : Nat) :
    beValue (xs ++ [b]) = 256 * beValue xs + b := by
  simp [beValue, List.foldl_append]

theorem beValue_beBytes (w v : Nat) : beValue (beBytes w v) = v % 256 ^ w := by
  induction w generalizing v with
  | zero => simp [beBytes, beValue, Nat.mod_one]
  | succ w ih =>
    rw [beBytes, beValue_snoc, ih, pow_succ', Nat.mod_mul]
    omega

theorem pow256_32 : 256 ^ 32 = 2 ^ 256 := by
  norm_num

theorem beValue_beBytes32 (v : Nat) (h : v < 2 ^ 256) :
    beValue (beBytes 32 v) = v := by
  rw [beValue_beBytes, pow256_32, Nat.mod_eq_of_lt h]

theorem padTo32_take (b : List Nat) : (padTo32 b).take b.length = b := by
  simp [padTo32]

theorem length_padTo32 (b : List Nat) : b.length ≤ (padTo32 b).length := by
  simp [padTo32]

theorem readBytes_at (pre mid rest : List Nat) (n : Nat) (h : n ≤ mid.length) :
    readBytes (pre ++ (mid ++ rest)) pre.length n = some (mid.take n) := by
  have hle : pre.length + n ≤ (pre ++ (mid ++ rest)).length := by
    simp only [List.length_append]; omega
  rw [readBytes, if_pos hle, List.drop_left, List.take_append_of_le_length h]

theorem readBytes_at_full (pre mid rest : List Nat) :
    readBytes (pre ++ (mid ++ rest)) pre.length mid.length = some mid := by
  simpa using readBytes_at pre mid rest mid.length le_rfl

theorem encode_word_spec (tok : Token) (t : ParamType) (enc : List Nat)
    (hc : conforms tok t = true) (he : encode_word tok t = some enc) :
    enc.length = 32 ∧ decode_word t enc = some tok := by
  cases tok <;> cases t <;> simp only [encode_word] at he <;>
    try exact Option.noConfusion he
  case address.address a =>
    rw [conforms] at hc
    have ha : a.length = 20 := by simpa using hc
    obtain rfl := Option.some.inj he
    refine ⟨by simp [ha], ?_⟩
    rw [decode_word]
    have : (List.replicate (32 - a.length) (0 : Nat) ++ a).drop 12 = a := by
      apply List.drop_left'
      simp [ha]
    rw [this]
  case bool.bool b =>
    obtain rfl := Option.some.inj he
    refine ⟨beBytes_length 32 _, ?_⟩
    cases b <;> simp [decode_word, beValue_beBytes32]
  case uint.uint v bits =>
    rw [conforms] at hc
    rw [if_pos hc] at he
    obtain rfl := Option.some.inj he
    refine ⟨beBytes_length 32 _, ?_⟩
    have hb : bits ≤ 256 := by
      simp only [Bool.and_eq_true, decide_eq_true_eq, bitsOk] at hc
      exact hc.1.1.2
    have hv : v < 2 ^ 256 := by
      have h1 : v < 2 ^ bits := by
        simp only [Bool.and_eq_true, decide_eq_true_eq] at hc
        exact hc.2
      exact h1.trans_le (Nat.pow_le_pow_right (by norm_num) hb)
    rw [decode_word, beValue_beBytes32 v hv]
  case fixedBytes.fixedBytes b n =>
    rw [conforms] at hc
    rw [if_pos hc] at he
    obtain rfl := Option.some.inj he
    simp only [Bool.and_eq_true, decide_eq_true_eq, beq_iff_eq] at hc
    obtain ⟨⟨hn0, hn32⟩, hbn⟩ := hc
    constructor
    · simp [hbn]; omega
    · rw [decode_word]
      have : (b ++ List.replicate (32 - n) (0 : Nat)).take n = b := by
        apply List.take_left'
        exact hbn
      rw [this]
  case int.int v bits =>
    rw [conforms] at hc
    rw [if_pos hc] at he
    obtain rfl := Option.some.inj he
    refine ⟨beBytes_length 32 _, ?_⟩
    simp only [Bool.and_eq_true, decide_eq_true_eq, bitsOk] at hc
    have hlo : -((2 : Int) ^ (bits - 1)) ≤ v := hc.1.2
    have hhi : v < (2 : Int) ^ (bits - 1) := hc.2
    have hb256 : bits ≤ 256 := hc.1.1.1.2
    have hpow : (2 : Int) ^ (bits - 1) ≤ 2 ^ 255 :=
      pow_le_pow_right₀ (by norm_num) (by omega)
    have h255 : ((2 : Int) ^ 255) < 2 ^ 256 := by norm_num
    have hM : (0 : Int) < 2 ^ 256 := by positivity
    rw [decode_word]
    rcases le_or_lt 0 v with hv0 | hv0
    · have hmod : v % (2 : Int) ^ 256 = v :=
        Int.emod_eq_of_lt hv0 (by linarith)
      rw [hmod]
      have hvN : v.toNat < 2 ^ 256 := by
        have : (v.toNat : Int) < ((2 ^ 256 : Nat) : Int) := by
          rw [Int.toNat_of_nonneg hv0]; push_cast; linarith
        exact_mod_cast this
      rw [beValue_beBytes32 _ hvN]
      have hlt : ¬ (2 ^ 255 ≤ v.toNat) := by
        intro hcon
        have : ((2 ^ 255 : Nat) : Int) ≤ (v.toNat : Int) := by exact_mod_cast hcon
        rw [Int.toNat_of_nonneg hv0] at this
        push_cast at this
        linarith
      rw [if_neg hlt, Int.toNat_of_nonneg hv0]
    · have hge : (0 : Int) ≤ v + 2 ^ 256 := by linarith
      have hmod : v % (2 : Int) ^ 256 = v + 2 ^ 256 := by
        rw [show v + (2 : Int) ^ 256 = v + 2 ^ 256 * 1 by ring] at hge ⊢
        rw [← Int.add_mul_emod_self_left (a := v) (b := (2 : Int) ^ 256) (c := 1)]
        exact Int.emod_eq_of_lt hge (by linarith)
      rw [hmod]
      have huN : (v + 2 ^ 256).toNat < 2 ^ 256 := by
        have : ((v + 2 ^ 256).toNat : Int) < ((2 ^ 256 : Nat) : Int) := by
          rw [Int.toNat_of_nonneg hge]; push_cast; linarith
        exact_mod_cast this
      rw [beValue_beBytes32 _ huN]
      have hgeN : 2 ^ 255 ≤ (v + 2 ^ 256).toNat := by
        have : ((2 ^ 255 : Nat) : Int) ≤ ((v + 2 ^ 256).toNat : Int) := by
          rw [Int.toNat_of_nonneg hge]; push_cast; linarith
        exact_mod_cast this
      rw [if_pos hgeN]
      have : ((v + 2 ^ 256).toNat : Int) = v + 2 ^ 256 := Int.toNat_of_nonneg hge
      rw [this]
      congr 1
      push_cast
      ring_nf

theorem head_size_static (t : ParamType) (h : is_dynamic t = false) :
    head_size t = static_size t := by
  simp [head_size, h]

theorem head_size_dynamic (t : ParamType) (h : is_dynamic t = true) :
    head_size t = 32 := by
  simp [head_size, h]

theorem headBytes_replicate (n : Nat) (e : ParamType) :
    headBytes (List.replicate n e) = n * head_size e := by
  induction n with
  | zero => simp [headBytes]
  | succ n ih => simp [List.replicate_succ, headBytes, ih]; ring

theorem headBytes_static (ts : List ParamType) (h : anyDyn ts = false) :
    headBytes ts = sumStatic ts := by
  induction ts with
  | nil => rfl
  | cons t ts ih =>
    simp only [anyDyn, Bool.or_eq_false_iff] at h
    rw [headBytes, sumStatic, head_size_static t h.1, ih h.2]

theorem anyDyn_replicate (n : Nat) (e : ParamType) (h : is_dynamic e = false) :
    anyDyn (List.replicate n e) = false := by
  induction n with
  | zero => rfl
  | succ n ih => simp [List.replicate_succ, anyDyn, h, ih]

theorem conformsElems_iff (toks : List Token) (e : ParamType) :
    conformsElems toks e = conformsList toks (List.replicate toks.length e) := by
  induction toks with
  | nil => rfl
  | cons tok toks ih => simp [conformsElems, conformsList, List.replicate_succ, ih]

theorem reqV_pos (t : ParamType) : 1 ≤ reqV t := by
  cases t <;> simp [reqV]

theorem reqList_mem (t : ParamType) (ts : List ParamType) (h : t ∈ ts) :
    reqV t ≤ reqList ts := by
  induction ts with
  | nil => cases h
  | cons u ts ih =>
    rw [reqList]
    rcases List.mem_cons.mp h with rfl | h
    · exact le_max_left _ _
    · exact (ih h).trans (le_max_right _ _)

theorem encodeSeq_shape (n : Nat) :
    (∀ tok t enc, tokenWeight tok ≤ n → conforms tok t = true →
       encodeValue tok t = some enc → is_dynamic t = false →
       enc.length = static_size t) ∧
    (∀ toks ts hs tLen h tl, listTokenWeight toks ≤ n →
       conformsList toks ts = true → encodeSeq hs toks ts tLen = some (h, tl) →
       h.length = headBytes ts ∧ (anyDyn ts = false → tl = [])) := by
  induction n using Nat.strong_induction_on with
  | _ n ih =>
  constructor
  · intro tok t enc hw hc he hstat
    cases tok <;> cases t <;>
      try (exfalso; revert hc; simp only [conforms]; decide)
    case address.address a =>
      rw [show encodeValue (.address a) .address = encode_word (.address a) .address
        from rfl] at he
      rw [(encode_word_spec _ _ _ hc he).1]
      rfl
    case bool.bool b =>
      rw [show encodeValue (.bool b) .bool = encode_word (.bool b) .bool from rfl] at he
      rw [(encode_word_spec _ _ _ hc he).1]
      rfl
    case int.int v bits =>
      rw [show encodeValue (.int v) (.int bits) = encode_word (.int v) (.int bits)
        from rfl] at he
      rw [(encode_word_spec _ _ _ hc he).1]
      rfl
    case uint.uint v bits =>
      rw [show encodeValue (.uint v) (.uint bits) = encode_word (.uint v) (.uint bits)
        from rfl] at he
      rw [(encode_word_spec _ _ _ hc he).1]
      rfl
    case fixedBytes.fixedBytes b m =>
      rw [show encodeValue (.fixedBytes b) (.fixedBytes m)
        = encode_word (.fixedBytes b) (.fixedBytes m) from rfl] at he
      rw [(encode_word_spec _ _ _ hc he).1]
      rfl
    case bytes.bytes b => simp [is_dynamic] at hstat
    case string.string s => simp [is_dynamic] at hstat
    case array.array toks e => simp [is_dynamic] at hstat
    case fixedArray.fixedArray toks e m =>
      rw [is_dynamic] at hstat
      rw [conforms, Bool.and_eq_true, beq_iff_eq] at hc
      rw [encodeValue] at he
      rw [Option.map_eq_some'] at he
      obtain ⟨⟨h, tl⟩, hseq, rfl⟩ := he
      rw [tokenWeight] at hw
      have hB := (ih (listTokenWeight toks) (by omega)).2 toks
        (List.replicate toks.length e) _ _ _ _ le_rfl
        ((conformsElems_iff toks e) ▸ hc.2) hseq
      have htl : tl = [] := hB.2 (anyDyn_replicate _ _ hstat)
      subst htl
      simp only [List.append_nil, List.length_append]
      rw [hB.1, headBytes_replicate, head_size_static e hstat, static_size, hc.1]
    case tuple.tuple toks ts =>
      rw [is_dynamic] at hstat
      rw [conforms] at hc
      rw [encodeValue] at he
      rw [Option.map_eq_some'] at he
      obtain ⟨⟨h, tl⟩, hseq, rfl⟩ := he
      rw [tokenWeight] at hw
      have hB := (ih (listTokenWeight toks) (by omega)).2 toks ts _ _ _ _ le_rfl hc hseq
      have htl : tl = [] := hB.2 hstat
      subst htl
      simp only [List.append_nil, List.length_append]
      rw [hB.1, headBytes_static ts hstat, static_size]
  · intro toks ts hs tLen h tl hw hc hseq
    cases toks with
    | nil =>
      cases ts with
      | nil =>
        rw [encodeSeq] at hseq
        obtain ⟨rfl, rfl⟩ := Prod.mk.injEq .. ▸ Option.some.inj hseq
        exact ⟨rfl, fun _ => rfl⟩
      | cons t ts => simp [conformsList] at hc
    | cons tok toks =>
      cases ts with
      | nil => simp [conformsList] at hc
      | cons t ts =>
        rw [conformsList, Bool.and_eq_true] at hc
        rw [listTokenWeight] at hw
        rw [encodeSeq] at hseq
        by_cases hd : is_dynamic t = true
        · rw [if_pos hd] at hseq
          rw [Option.bind_eq_some] at hseq
          obtain ⟨enc, henc, hseq⟩ := hseq
          rw [Option.map_eq_some'] at hseq
          obtain ⟨⟨h1, tl1⟩, hseq, hp⟩ := hseq
          obtain ⟨rfl, rfl⟩ := Prod.mk.injEq .. ▸ hp
          have hB := (ih (listTokenWeight toks) (by omega)).2 toks ts _ _ _ _ le_rfl
            hc.2 hseq
          refine ⟨?_, ?_⟩
          · simp only [List.length_append, beBytes_length, headBytes,
              head_size_dynamic t hd, hB.1]
          · intro hstat
            rw [anyDyn, Bool.or_eq_false_iff] at hstat
            exact absurd hd (by simp [hstat.1])
        · rw [if_neg hd, Option.bind_eq_some] at hseq
          obtain ⟨enc, henc, hseq⟩ := hseq
          rw [Option.map_eq_some'] at hseq
          obtain ⟨⟨h1, tl1⟩, hseq, hp⟩ := hseq
          obtain ⟨rfl, rfl⟩ := Prod.mk.injEq .. ▸ hp
          have hd' : is_dynamic t = false := by simpa using hd
          have hB := (ih (listTokenWeight toks) (by omega)).2 toks ts _ _ _ _ le_rfl
            hc.2 hseq
          have hA := (ih (tokenWeight tok) (by omega)).1 tok t enc le_rfl hc.1 henc hd'
          refine ⟨?_, ?_⟩
          · simp only [List.length_append, headBytes, head_size_static t hd', hA, hB.1]
          · intro hstat
            rw [anyDyn, Bool.or_eq_false_iff] at hstat
            exact hB.2 hstat.2

theorem encodeValue_static_len (tok : Token) (t : ParamType) (enc : List Nat)
    (hc : conforms tok t = true) (he : encodeValue tok t = some enc)
    (hstat : is_dynamic t = false) : enc.length = static_size t :=
  (encodeSeq_shape (tokenWeight tok)).1 tok t enc le_rfl hc he hstat

theorem encodeSeq_head_len (toks : List Token) (ts : List ParamType)
    (hs tLen : Nat) (h tl : List Nat) (hc : conformsList toks ts = true)
    (hseq : encodeSeq hs toks ts tLen = some (h, tl)) : h.length = headBytes ts :=
  ((encodeSeq_shape (listTokenWeight toks)).2 toks ts hs tLen h tl le_rfl hc hseq).1

theorem encode_ok (n : Nat) :
    (∀ tok t, tokenWeight tok ≤ n → conforms tok t = true →
       ∃ enc, encodeValue tok t = some enc) ∧
    (∀ toks ts hs tLen, listTokenWeight toks ≤ n → conformsList toks ts = true →
       ∃ h tl, encodeSeq hs toks ts tLen = some (h, tl)) := by
  induction n using Nat.strong_induction_on with
  | _ n ih =>
  constructor
  · intro tok t hw hc
    cases tok <;> cases t <;>
      try (exfalso; revert hc; simp only [conforms]; decide)
    case address.address a => exact ⟨_, rfl⟩
    case bool.bool b => exact ⟨_, rfl⟩
    case int.int v bits =>
      rw [conforms] at hc
      exact ⟨_, by rw [show encodeValue (.int v) (.int bits)
        = encode_word (.int v) (.int bits) from rfl, encode_word, if_pos hc]⟩
    case uint.uint v bits =>
      rw [conforms] at hc
      exact ⟨_, by rw [show encodeValue (.uint v) (.uint bits)
        = encode_word (.uint v) (.uint bits) from rfl, encode_word, if_pos hc]⟩
    case fixedBytes.fixedBytes b m =>
      rw [conforms] at hc
      exact ⟨_, by rw [show encodeValue (.fixedBytes b) (.fixedBytes m)
        = encode_word (.fixedBytes b) (.fixedBytes m) from rfl, encode_word, if_pos hc]⟩
    case bytes.bytes b => exact ⟨_, rfl⟩
    case string.string s => exact ⟨_, rfl⟩
    case array.array toks e =>
      rw [conforms, conformsElems_iff] at hc
      rw [tokenWeight] at hw
      obtain ⟨h, tl, hseq⟩ := (ih (listTokenWeight toks) (by omega)).2 toks
        (List.replicate toks.length e) (headBytes (List.replicate toks.length e)) 0
        le_rfl hc
      exact ⟨_, by rw [encodeValue, hseq, Option.map_some']⟩
    case fixedArray.fixedArray toks e m =>
      rw [conforms, Bool.and_eq_true] at hc
      rw [tokenWeight] at hw
      obtain ⟨h, tl, hseq⟩ := (ih (listTokenWeight toks) (by omega)).2 toks
        (List.replicate toks.length e) (headBytes (List.replicate toks.length e)) 0
        le_rfl ((conformsElems_iff toks e) ▸ hc.2)
      exact ⟨_, by rw [encodeValue, hseq, Option.map_some']⟩
    case tuple.tuple toks ts =>
      rw [conforms] at hc
      rw [tokenWeight] at hw
      obtain ⟨h, tl, hseq⟩ := (ih (listTokenWeight toks) (by omega)).2 toks ts
        (headBytes ts) 0 le_rfl hc
      exact ⟨_, by rw [encodeValue, hseq, Option.map_some']⟩
  · intro toks ts hs tLen hw hc
    cases toks with
    | nil => exact ⟨[], [], rfl⟩
    | cons tok toks =>
      cases ts with
      | nil => simp [conformsList] at hc
      | cons t ts =>
        rw [conformsList, Bool.and_eq_true] at hc
        rw [listTokenWeight] at hw
        obtain ⟨enc, henc⟩ := (ih (tokenWeight tok) (by omega)).1 tok t le_rfl hc.1
        by_cases hd : is_dynamic t = true
        · obtain ⟨h1, tl1, hseq⟩ := (ih (listTokenWeight toks) (by omega)).2 toks ts hs
            (tLen + enc.length) le_rfl hc.2
          exact ⟨_, _, by rw [encodeSeq, if_pos hd, henc, Option.some_bind, hseq,
            Option.map_some']⟩
        · obtain ⟨h1, tl1, hseq⟩ := (ih (listTokenWeight toks) (by omega)).2 toks ts hs
            tLen le_rfl hc.2
          exact ⟨_, _, by rw [encodeSeq, if_neg hd, henc, Option.some_bind, hseq,
            Option.map_some']⟩

theorem encode_tuple_ok (toks : List Token) (ts : List ParamType)
    (hc : conformsList toks ts = true) : ∃ enc, encode_tuple toks ts = some enc := by
  obtain ⟨h, tl, hseq⟩ := (encode_ok (listTokenWeight toks)).2 toks ts (headBytes ts) 0
    le_rfl hc
  exact ⟨h ++ tl, by rw [encode_tuple, hseq, Option.map_some']⟩

theorem readBytes_word (pre w rest : List Nat) (hw : w.length = 32) :
    readBytes (pre ++ (w ++ rest)) pre.length 32 = some w := by
  have h := readBytes_at pre w rest 32 (by omega)
  rwa [List.take_of_length_le (by omega)] at h

theorem word_decode_ok (tok : Token) (t : ParamType) (enc : List Nat)
    (hc : conforms tok t = true) (he : encode_word tok t = some enc)
    (pre rest : List Nat) (fuel : Nat) :
    decodeValue (fuel + 1) (pre ++ (enc ++ rest)) pre.length t = some tok := by
  obtain ⟨hlen, hdec⟩ := encode_word_spec tok t enc hc he
  have hread : readBytes (pre ++ (enc ++ rest)) pre.length 32 = some enc :=
    readBytes_word pre enc rest hlen
  cases t
  case address =>
    rw [show decodeValue (fuel + 1) (pre ++ (enc ++ rest)) pre.length .address
      = (readBytes (pre ++ (enc ++ rest)) pre.length 32).bind
          (fun w => decode_word .address w) from rfl, hread, Option.some_bind, hdec]
  case bool =>
    rw [show decodeValue (fuel + 1) (pre ++ (enc ++ rest)) pre.length .bool
      = (readBytes (pre ++ (enc ++ rest)) pre.length 32).bind
          (fun w => decode_word .bool w) from rfl, hread, Option.some_bind, hdec]
  case int bits =>
    rw [show decodeValue (fuel + 1) (pre ++ (enc ++ rest)) pre.length (.int bits)
      = (readBytes (pre ++ (enc ++ rest)) pre.length 32).bind
          (fun w => decode_word (.int bits) w) from rfl, hread, Option.some_bind, hdec]
  case uint bits =>
    rw [show decodeValue (fuel + 1) (pre ++ (enc ++ rest)) pre.length (.uint bits)
      = (readBytes (pre ++ (enc ++ rest)) pre.length 32).bind
          (fun w => decode_word (.uint bits) w) from rfl, hread, Option.some_bind, hdec]
  case fixedBytes m =>
    rw [show decodeValue (fuel + 1) (pre ++ (enc ++ rest)) pre.length (.fixedBytes m)
      = (readBytes (pre ++ (enc ++ rest)) pre.length 32).bind
          (fun w => decode_word (.fixedBytes m) w) from rfl, hread, Option.some_bind, hdec]
  all_goals cases tok <;> simp [encode_word] at he

theorem decode_main (n : Nat) :
    (∀ tok t, tokenWeight tok ≤ n → ∀ enc, conforms tok t = true → countsOk tok = true →
       encodeValue tok t = some enc → (is_dynamic t = true → enc.length < 2 ^ 256) →
       ∀ pre rest fuel, reqV t ≤ fuel →
         decodeValue fuel (pre ++ (enc ++ rest)) pre.length t = some tok) ∧
    (∀ toks ts, listTokenWeight toks ≤ n → conformsList toks ts = true →
       countsOkList toks = true →
       ∀ hs tLen h tl, encodeSeq hs toks ts tLen = some (h, tl) →
       (anyDyn ts = true → hs + tLen + tl.length < 2 ^ 256) →
       ∀ B pre mid rest fuel,
         B + hs + tLen = pre.length + h.length + mid.length →
         (∀ t ∈ ts, reqV t ≤ fuel) →
         decodeSeqWith (decodeValue fuel) (pre ++ (h ++ (mid ++ (tl ++ rest)))) B
           pre.length ts = some toks) := by
  induction n using Nat.strong_induction_on with
  | _ n ih =>
  constructor
  · intro tok t hw enc hc hk he hb pre rest fuel hf
    cases tok <;> cases t <;>
      try (exfalso; revert hc; simp only [conforms]; decide)
    case address.address a =>
      cases fuel with
      | zero => exact absurd hf (by simp [reqV])
      | succ fuel => exact word_decode_ok _ _ _ hc he pre rest fuel
    case bool.bool b =>
      cases fuel with
      | zero => exact absurd hf (by simp [reqV])
      | succ fuel => exact word_decode_ok _ _ _ hc he pre rest fuel
    case int.int v bits =>
      cases fuel with
      | zero => exact absurd hf (by simp [reqV])
      | succ fuel => exact word_decode_ok _ _ _ hc he pre rest fuel
    case uint.uint v bits =>
      cases fuel with
      | zero => exact absurd hf (by simp [reqV])
      | succ fuel => exact word_decode_ok _ _ _ hc he pre rest fuel
    case fixedBytes.fixedBytes b m =>
      cases fuel with
      | zero => exact absurd hf (by simp [reqV])
      | succ fuel => exact word_decode_ok _ _ _ hc he pre rest fuel
    case bytes.bytes b =>
      have hkb : b.length < 2 ^ 256 := by rw [countsOk] at hk; simpa using hk
      rw [encodeValue] at he
      obtain rfl := Option.some.inj he
      cases fuel with
      | zero => exact absurd hf (by simp [reqV])
      | succ fuel =>
      simp only [decodeValue]
      rw [show (beBytes 32 b.length ++ padTo32 b) ++ rest
          = beBytes 32 b.length ++ (padTo32 b ++ rest) from List.append_assoc ..]
      rw [readBytes_word pre _ _ (beBytes_length 32 b.length), Option.some_bind,
        beValue_beBytes32 _ hkb]
      have h2 : readBytes (pre ++ (beBytes 32 b.length ++ (padTo32 b ++ rest)))
          (pre.length + 32) b.length = some b := by
        have h3 := readBytes_at (pre ++ beBytes 32 b.length) (padTo32 b) rest b.length
          (length_padTo32 b)
        rw [padTo32_take, List.append_assoc] at h3
        simpa [beBytes_length] using h3
      rw [h2, Option.map_some']
    case string.string s =>
      have hkb : s.length < 2 ^ 256 := by rw [countsOk] at hk; simpa using hk
      rw [encodeValue] at he
      obtain rfl := Option.some.inj he
      cases fuel with
      | zero => exact absurd hf (by simp [reqV])
      | succ fuel =>
      simp only [decodeValue]
      rw [show (beBytes 32 s.length ++ padTo32 s) ++ rest
          = beBytes 32 s.length ++ (padTo32 s ++ rest) from List.append_assoc ..]
      rw [readBytes_word pre _ _ (beBytes_length 32 s.length), Option.some_bind,
        beValue_beBytes32 _ hkb]
      have h2 : readBytes (pre ++ (beBytes 32 s.length ++ (padTo32 s ++ rest)))
          (pre.length + 32) s.length = some s := by
        have h3 := readBytes_at (pre ++ beBytes 32 s.length) (padTo32 s) rest s.length
          (length_padTo32 s)
        rw [padTo32_take, List.append_assoc] at h3
        simpa [beBytes_length] using h3
      rw [h2, Option.map_some']
    case array.array toks e =>
      rw [conforms, conformsElems_iff] at hc
      rw [countsOk, Bool.and_eq_true] at hk
      have hcnt : toks.length < 2 ^ 256 := by simpa using hk.1
      rw [encodeValue, Option.map_eq_some'] at he
      obtain ⟨⟨h0, tl0⟩, hseq, rfl⟩ := he
      cases fuel with
      | zero => exact absurd hf (by simp [reqV])
      | succ fuel =>
      have hfe : reqV e ≤ fuel := by rw [reqV] at hf; omega
      simp only [decodeValue]
      rw [tokenWeight] at hw
      have hhl := encodeSeq_head_len toks _ _ _ _ _ hc hseq
      rw [show (beBytes 32 toks.length ++ (h0 ++ tl0)) ++ rest
          = beBytes 32 toks.length ++ (h0 ++ (tl0 ++ rest)) from by
        simp [List.append_assoc]]
      rw [readBytes_word pre _ _ (beBytes_length 32 toks.length), Option.some_bind,
        beValue_beBytes32 _ hcnt]
      have hIH := (ih (listTokenWeight toks) (by omega)).2 toks
        (List.replicate toks.length e) le_rfl hc hk.2 _ _ _ _ hseq
        (fun _ => by
          have hBnd := hb rfl
          simp only [List.length_append, beBytes_length] at hBnd
          rw [← hhl]
          omega)
        ((pre ++ beBytes 32 toks.length).length) (pre ++ beBytes 32 toks.length) [] rest
        fuel
        (by simp [hhl])
        (fun t' ht' => by rw [List.eq_of_mem_replicate ht']; exact hfe)
      rw [show pre ++ (beBytes 32 toks.length ++ (h0 ++ (tl0 ++ rest)))
          = (pre ++ beBytes 32 toks.length) ++ (h0 ++ ([] ++ (tl0 ++ rest))) from by
        simp [List.append_assoc]]
      rw [show pre.length + 32 = (pre ++ beBytes 32 toks.length).length from by
        simp [beBytes_length]]
      rw [hIH, Option.map_some']
    case fixedArray.fixedArray toks e m =>
      rw [conforms, Bool.and_eq_true, beq_iff_eq] at hc
      rw [countsOk] at hk
      rw [encodeValue, Option.map_eq_some'] at he
      obtain ⟨⟨h0, tl0⟩, hseq, rfl⟩ := he
      cases fuel with
      | zero => exact absurd hf (by simp [reqV])
      | succ fuel =>
      have hfe : reqV e ≤ fuel := by rw [reqV] at hf; omega
      simp only [decodeValue]
      rw [tokenWeight] at hw
      have hcl : conformsList toks (List.replicate toks.length e) = true :=
        conformsElems_iff toks e ▸ hc.2
      have hhl := encodeSeq_head_len toks _ _ _ _ _ hcl hseq
      obtain rfl := hc.1
      have hIH := (ih (listTokenWeight toks) (by omega)).2 toks
        (List.replicate toks.length e) le_rfl hcl hk _ _ _ _ hseq
        (fun hdyn => by
          have hde : is_dynamic e = true := by
            by_contra hcon
            rw [anyDyn_replicate _ _ (by simpa using hcon)] at hdyn
            exact Bool.noConfusion hdyn
          have hBnd := hb (by rw [is_dynamic]; exact hde)
          simp only [List.length_append] at hBnd
          rw [← hhl]
          omega)
        pre.length pre [] rest fuel
        (by simp [hhl])
        (fun t' ht' => by rw [List.eq_of_mem_replicate ht']; exact hfe)
      rw [show pre ++ ((h0 ++ tl0) ++ rest) = pre ++ (h0 ++ ([] ++ (tl0 ++ rest))) from by
        simp [List.append_assoc]]
      rw [hIH, Option.map_some']
    case tuple.tuple toks ts =>
      rw [conforms] at hc
      rw [countsOk] at hk
      rw [encodeValue, Option.map_eq_some'] at he
      obtain ⟨⟨h0, tl0⟩, hseq, rfl⟩ := he
      cases fuel with
      | zero => exact absurd hf (by simp [reqV])
      | succ fuel =>
      have hfl : reqList ts ≤ fuel := by rw [reqV] at hf; omega
      simp only [decodeValue]
      rw [tokenWeight] at hw
      have hhl := encodeSeq_head_len toks _ _ _ _ _ hc hseq
      have hIH := (ih (listTokenWeight toks) (by omega)).2 toks ts le_rfl hc hk _ _ _ _
        hseq
        (fun hdyn => by
          have hBnd := hb (by rw [is_dynamic]; exact hdyn)
          simp only [List.length_append] at hBnd
          rw [← hhl]
          omega)
        pre.length pre [] rest fuel
        (by simp [hhl])
        (fun t' ht' => (reqList_mem t' ts ht').trans hfl)
      rw [show pre ++ ((h0 ++ tl0) ++ rest) = pre ++ (h0 ++ ([] ++ (tl0 ++ rest))) from by
        simp [List.append_assoc]]
      rw [hIH, Option.map_some']
  · intro toks ts hw hc hk hs tLen h tl hseq hbound B pre mid rest fuel hpos hfuel
    cases toks with
    | nil =>
      cases ts with
      | nil =>
        rw [encodeSeq] at hseq
        obtain ⟨rfl, rfl⟩ := Prod.mk.injEq .. ▸ Option.some.inj hseq
        rfl
      | cons t ts => simp [conformsList] at hc
    | cons tok toks =>
      cases ts with
      | nil => simp [conformsList] at hc
      | cons t ts =>
        rw [conformsList, Bool.and_eq_true] at hc
        rw [countsOkList, Bool.and_eq_true] at hk
        rw [listTokenWeight] at hw
        rw [encodeSeq] at hseq
        have hft : reqV t ≤ fuel := hfuel t (List.mem_cons_self ..)
        have hfts : ∀ t' ∈ ts, reqV t' ≤ fuel :=
          fun t' ht' => hfuel t' (List.mem_cons_of_mem _ ht')
        by_cases hd : is_dynamic t = true
        · rw [if_pos hd, Option.bind_eq_some] at hseq
          obtain ⟨enc, henc, hseq⟩ := hseq
          rw [Option.map_eq_some'] at hseq
          obtain ⟨⟨h1, tl1⟩, hseq, hp⟩ := hseq
          obtain ⟨rfl, rfl⟩ := Prod.mk.injEq .. ▸ hp
          have hoff : hs + tLen < 2 ^ 256 := by
            have hBnd := hbound (by rw [anyDyn, hd, Bool.true_or])
            simp only [List.length_append] at hBnd
            omega
          simp only [decodeSeqWith]
          rw [if_pos hd]
          rw [show pre ++ ((beBytes 32 (hs + tLen) ++ h1) ++ (mid ++ ((enc ++ tl1) ++ rest)))
              = pre ++ (beBytes 32 (hs + tLen) ++ (h1 ++ (mid ++ (enc ++ (tl1 ++ rest)))))
            from by simp [List.append_assoc]]
          rw [readBytes_word pre _ _ (beBytes_length _ _), Option.some_bind,
            beValue_beBytes32 _ hoff]
          have hA := (ih (tokenWeight tok) (by omega)).1 tok t le_rfl enc hc.1 hk.1 henc
            (fun _ => by
              have hBnd := hbound (by rw [anyDyn, hd, Bool.true_or])
              simp only [List.length_append] at hBnd
              omega)
            (pre ++ (beBytes 32 (hs + tLen) ++ (h1 ++ mid))) (tl1 ++ rest) fuel hft
          rw [show B + (hs + tLen)
              = (pre ++ (beBytes 32 (hs + tLen) ++ (h1 ++ mid))).length from by
            simp only [List.length_append, beBytes_length]
            simp only [List.length_append, beBytes_length] at hpos
            omega]
          rw [show pre ++ (beBytes 32 (hs + tLen) ++ (h1 ++ (mid ++ (enc ++ (tl1 ++ rest)))))
              = (pre ++ (beBytes 32 (hs + tLen) ++ (h1 ++ mid))) ++ (enc ++ (tl1 ++ rest))
            from by simp [List.append_assoc]]
          rw [hA, Option.some_bind]
          have hIH := (ih (listTokenWeight toks) (by omega)).2 toks ts le_rfl hc.2 hk.2
            hs (tLen + enc.length) h1 tl1 hseq
            (fun hdyn => by
              have hBnd := hbound (by rw [anyDyn, hd, Bool.true_or])
              simp only [List.length_append] at hBnd
              omega)
            B (pre ++ beBytes 32 (hs + tLen)) (mid ++ enc) rest fuel
            (by
              simp only [List.length_append, beBytes_length]
              simp only [List.length_append, beBytes_length] at hpos
              omega)
            hfts
          rw [show (pre ++ (beBytes 32 (hs + tLen) ++ (h1 ++ mid))) ++ (enc ++ (tl1 ++ rest))
              = (pre ++ beBytes 32 (hs + tLen)) ++ (h1 ++ ((mid ++ enc) ++ (tl1 ++ rest)))
            from by simp [List.append_assoc]]
          rw [show pre.length + 32 = (pre ++ beBytes 32 (hs + tLen)).length from by
            simp [beBytes_length]]
          rw [hIH, Option.map_some']
        · have hd' : is_dynamic t = false := by simpa using hd
          rw [if_neg hd, Option.bind_eq_some] at hseq
          obtain ⟨enc, henc, hseq⟩ := hseq
          rw [Option.map_eq_some'] at hseq
          obtain ⟨⟨h1, tl1⟩, hseq, hp⟩ := hseq
          obtain ⟨rfl, rfl⟩ := Prod.mk.injEq .. ▸ hp
          have hsl : enc.length = static_size t :=
            encodeValue_static_len tok t enc hc.1 henc hd'
          simp only [decodeSeqWith]
          rw [if_neg hd]
          have hA := (ih (tokenWeight tok) (by omega)).1 tok t le_rfl enc hc.1 hk.1 henc
            (fun hdt => absurd hdt (by simp [hd']))
            pre (h1 ++ (mid ++ (tl1 ++ rest))) fuel hft
          rw [show pre ++ ((enc ++ h1) ++ (mid ++ (tl1 ++ rest)))
              = pre ++ (enc ++ (h1 ++ (mid ++ (tl1 ++ rest)))) from by
            simp [List.append_assoc]]
          rw [hA, Option.some_bind]
          have hIH := (ih (listTokenWeight toks) (by omega)).2 toks ts le_rfl hc.2 hk.2
            hs tLen h1 tl1 hseq
            (fun hdyn => hbound (by rw [anyDyn, hdyn, Bool.or_true]))
            B (pre ++ enc) mid rest fuel
            (by
              simp only [List.length_append]
              simp only [List.length_append] at hpos
              omega)
            hfts
          rw [show pre ++ (enc ++ (h1 ++ (mid ++ (tl1 ++ rest))))
              = (pre ++ enc) ++ (h1 ++ (mid ++ (tl1 ++ rest))) from by
            simp [List.append_assoc]]
          rw [show pre.length + head_size t = (pre ++ enc).length from by
            rw [head_size_static t hd', ← hsl]
            simp]
          rw [hIH, Option.map_some']

/-- Claim C1: for every `ParamType` and every conforming `Token` value,
decoding the encoding of that value against the same type yields the
original value back, and likewise for every input list of a function:
`decode_tuple (encode_tuple toks ts) ts = some toks`.  Conformance plus
representable counts guarantee the encoder succeeds; whenever the
encoding's length is representable in an offset word, decoding it
reproduces every original value. -/
theorem claim_C1_round_trip (toks : List Token) (ts : List ParamType)
    (hc : conformsList toks ts = true) (hk : countsOkList toks = true) :
    (∃ enc, encode_tuple toks ts = some enc) ∧
    ∀ enc, encode_tuple toks ts = some enc → enc.length < 2 ^ 256 →
      decode_tuple enc ts = some toks := by
  refine ⟨encode_tuple_ok toks ts hc, ?_⟩
  intro enc henc hlen
  rw [encode_tuple, Option.map_eq_some'] at henc
  obtain ⟨⟨h, tl⟩, hseq, rfl⟩ := henc
  have hhl := encodeSeq_head_len toks ts _ _ _ _ hc hseq
  rw [decode_tuple]
  have hIH := (decode_main (listTokenWeight toks)).2 toks ts le_rfl hc hk _ _ _ _ hseq
    (fun _ => by
      simp only [List.length_append] at hlen
      rw [← hhl]
      omega)
    0 [] [] [] (reqList ts)
    (by simp [hhl])
    (fun t ht => reqList_mem t ts ht)
  simpa using hIH

/-- Witness for claim C1 at the `FunString` test vector: the single
string argument `"test"` encodes to offset word `0x20`, length word `4`
and the padded bytes of `"test"`, and decoding that buffer returns the
original token. -/
theorem claim_C1_round_trip_witness :
    (∃ enc, encode_tuple [Token.string [0x74, 0x65, 0x73, 0x74]] [ParamType.string]
      = some enc) ∧
    decode_tuple
      (List.replicate 31 0 ++ [0x20] ++ (List.replicate 31 0 ++ [0x04])
        ++ ([0x74, 0x65, 0x73, 0x74] ++ List.replicate 28 0))
      [ParamType.string] = some [Token.string [0x74, 0x65, 0x73, 0x74]] := by
  refine ⟨(claim_C1_round_trip _ _ (by decide) (by decide)).1, ?_⟩
  exact (claim_C1_round_trip [Token.string [0x74, 0x65, 0x73, 0x74]] [ParamType.string]
    (by decide) (by decide)).2 _ rfl (by decide)

/-- Claim C2: for every Int-typed 32-byte word, `decode_word` interprets
the word as the big-endian unsigned integer `u` and yields `u - 2^256`
when `u ≥ 2^255` and `u` otherwise; dually, encoding a negative Int value
produces the 32-byte word whose big-endian value equals `value + 2^256`
(that is, `value mod 2^256`); concretely, the encoded word for the value
`-9809887317731` at `Int(256)` is `fffff…f713f526b11d` (26 `0xff` bytes
followed by `f7 13 f5 26 b1 1d`). -/
theorem claim_C2_int_two_complement :
    (∀ w : List Nat, w.length = 32 →
       decode_word (.int 256) w
         = some (.int (if 2 ^ 255 ≤ beValue w then (beValue w : Int) - 2 ^ 256
                       else (beValue w : Int)))) ∧
    (∀ (bits : Nat) (v : Int), bitsOk bits = true →
       -((2 : Int) ^ (bits - 1)) ≤ v → v < 0 →
       ∃ enc, encode_word (.int v) (.int bits) = some enc ∧ enc.length = 32 ∧
         (beValue enc : Int) = v + 2 ^ 256) ∧
    encode_word (.int (-9809887317731)) (.int 256)
      = some (List.replicate 26 0xff ++ [0xf7, 0x13, 0xf5, 0x26, 0xb1, 0x1d]) := by
  refine ⟨fun w _ => rfl, ?_, by decide⟩
  intro bits v hbOk hlo hneg
  have hhi : v < (2 : Int) ^ (bits - 1) := lt_of_lt_of_le hneg (by positivity)
  have hguard : (bitsOk bits && decide (-((2 : Int) ^ (bits - 1)) ≤ v)
      && decide (v < (2 : Int) ^ (bits - 1))) = true := by
    simp [hbOk, hlo, hhi]
  refine ⟨beBytes 32 ((v % (2 : Int) ^ 256).toNat), ?_, beBytes_length 32 _, ?_⟩
  · rw [encode_word, if_pos hguard]
  · have hb256 : bits ≤ 256 := by
      simp only [bitsOk, Bool.and_eq_true, decide_eq_true_eq] at hbOk
      exact hbOk.1.2
    have hpow : (2 : Int) ^ (bits - 1) ≤ 2 ^ 255 :=
      pow_le_pow_right₀ (by norm_num) (by omega)
    have h2 : (2 : Int) ^ 255 ≤ 2 ^ 256 := by norm_num
    have hge : (0 : Int) ≤ v + 2 ^ 256 := by linarith
    have hmod : v % (2 : Int) ^ 256 = v + 2 ^ 256 := by
      rw [show v + (2 : Int) ^ 256 = v + 2 ^ 256 * 1 by ring] at hge ⊢
      rw [← Int.add_mul_emod_self_left (a := v) (b := (2 : Int) ^ 256) (c := 1)]
      exact Int.emod_eq_of_lt hge (by linarith)
    rw [hmod]
    have huN : (v + 2 ^ 256).toNat < 2 ^ 256 := by
      have hcast : ((v + 2 ^ 256).toNat : Int) < ((2 ^ 256 : Nat) : Int) := by
        rw [Int.toNat_of_nonneg hge]
        push_cast
        linarith
      exact_mod_cast hcast
    rw [beValue_beBytes32 _ huN, Int.toNat_of_nonneg hge]

/-- Witness for claim C2: the all-`0xff` word decodes as `-1` at
`Int(256)`, and `-1` at `Int(8)` encodes to a 32-byte word of value
`2^256 - 1`. -/
theorem claim_C2_int_two_complement_witness :
    decode_word (.int 256) (List.replicate 32 0xff) = some (.int (-1)) ∧
    (∃ enc, encode_word (.int (-1)) (.int 8) = some enc ∧ enc.length = 32 ∧
      (beValue enc : Int) = -1 + 2 ^ 256) := by
  constructor
  · exact (claim_C2_int_two_complement.1 (List.replicate 32 0xff) (by decide)).trans
      (congrArg (fun z => some (Token.int z)) (by decide))
  · exact claim_C2_int_two_complement.2.1 8 (-1) (by decide) (by decide) (by decide)

/-- Claim C3: for a function descriptor with exactly one output
parameter, `output_call` decodes `call.return_data` against the output
type and returns the single decoded value unwrapped, not a one-element
tuple; with two or more outputs it returns the tuple of all decoded
values in declaration order. -/
theorem claim_C3_output_unwrap :
    (∀ (f : AbiFunction) (call : Call) (t : ParamType) (v : Token),
       f.outputs = [t] → decode_tuple call.return_data [t] = some [v] →
       output_call f call = some (.single v)) ∧
    (∀ (f : AbiFunction) (call : Call) (t1 t2 : ParamType) (ts : List ParamType)
       (vs : List Token),
       f.outputs = t1 :: t2 :: ts → decode_tuple call.return_data f.outputs = some vs →
       output_call f call = some (.tupleVal vs)) := by
  constructor
  · intro f call t v hout hdec
    obtain ⟨sel, ins, outs⟩ := f
    obtain rfl : outs = [t] := hout
    rw [output_call]
    simp only [decode_output]
    rw [hdec]
    rfl
  · intro f call t1 t2 ts vs hout hdec
    obtain ⟨sel, ins, outs⟩ := f
    obtain rfl : outs = t1 :: t2 :: ts := hout
    have hdec2 : decode_tuple call.return_data (t1 :: t2 :: ts) = some vs := hdec
    rw [output_call]
    simp only [decode_output]
    rw [hdec2]
    rfl

/-- Witness for claim C3 at the `FunReturnsString1` and
`FunReturnsStringString` test vectors: a one-output function unwraps the
decoded string `"test"`; a two-output function tuples `"test1"` and
`"test2"`. -/
theorem claim_C3_output_unwrap_witness :
    output_call ⟨[0x7a, 0x37, 0x19, 0xf0], [], [ParamType.string]⟩
        ⟨[0x7a, 0x37, 0x19, 0xf0],
          List.replicate 31 0 ++ [0x20] ++ (List.replicate 31 0 ++ [0x04])
            ++ ([0x74, 0x65, 0x73, 0x74] ++ List.replicate 28 0)⟩
      = some (.single (Token.string [0x74, 0x65, 0x73, 0x74])) ∧
    output_call ⟨[0x85, 0x03, 0x2f, 0x7c], [], [ParamType.string, ParamType.string]⟩
        ⟨[0x85, 0x03, 0x2f, 0x7c],
          List.replicate 31 0 ++ [0x40] ++ (List.replicate 31 0 ++ [0x80])
            ++ (List.replicate 31 0 ++ [0x05])
            ++ ([0x74, 0x65, 0x73, 0x74, 0x31] ++ List.replicate 27 0)
            ++ (List.replicate 31 0 ++ [0x05])
            ++ ([0x74, 0x65, 0x73, 0x74, 0x32] ++ List.replicate 27 0)⟩
      = some (.tupleVal [Token.string [0x74, 0x65, 0x73, 0x74, 0x31],
          Token.string [0x74, 0x65, 0x73, 0x74, 0x32]]) := by
  constructor
  · exact claim_C3_output_unwrap.1 _ _ ParamType.string
      (Token.string [0x74, 0x65, 0x73, 0x74]) rfl rfl
  · exact claim_C3_output_unwrap.2 _ _ ParamType.string ParamType.string []
      [Token.string [0x74, 0x65, 0x73, 0x74, 0x31],
        Token.string [0x74, 0x65, 0x73, 0x74, 0x32]] rfl rfl

/-- Claim C9: for a function descriptor with zero output parameters, the
generated output decoder returns success with `()` for every output byte
buffer whatsoever; the buffer is never inspected and decoding can never
fail. -/
theorem claim_C9_zero_outputs (f : AbiFunction) (h : f.outputs = [])
    (data : List Nat) : decode_output f data = some .unit := by
  obtain ⟨sel, ins, outs⟩ := f
  obtain rfl : outs = [] := h
  rfl

/-- Witness for claim C9: a zero-output descriptor decodes a garbage
3-byte buffer (not even word-aligned) to `()`. -/
theorem claim_C9_zero_outputs_witness :
    decode_output ⟨[0x7a, 0x37, 0x19, 0xf0], [], []⟩ [0xde, 0xad, 0xbe]
      = some .unit :=
  claim_C9_zero_outputs _ rfl _

/-- Claim C10: for every function descriptor and input token list, the
byte string in the first component of the pair returned by the generated
`call` equals the byte string returned by the generated `encode_input` on
the same values: both build the same token vector and pass it to the same
tuple encoder with the same selector. -/
theorem claim_C10_call_encode_agree (f : AbiFunction) (toks : List Token) :
    (fn_call f toks).1 = encode_input f toks := rfl

/-- Claim C4: `encode` produces exactly the 4-byte selector concatenated
with the head/tail encoding of the argument tuple; concretely, a function
with single string input `"test"` and selector `b0d94419` encodes to the
selector followed by offset word `0x20`, length word `4`, and the padded
bytes of `"test"`. -/
theorem claim_C4_encode_selector :
    (∀ (f : AbiFunction) (toks : List Token) (enc : List Nat),
       encode_tuple toks f.inputs = some enc →
       encode_input f toks = some (f.selector ++ enc)) ∧
    encode_input ⟨[0xb0, 0xd9, 0x44, 0x19], [ParamType.string], []⟩
        [Token.string [0x74, 0x65, 0x73, 0x74]]
      = some ([0xb0, 0xd9, 0x44, 0x19]
          ++ (List.replicate 31 0 ++ [0x20] ++ (List.replicate 31 0 ++ [0x04])
            ++ ([0x74, 0x65, 0x73, 0x74] ++ List.replicate 28 0))) := by
  constructor
  · intro f toks enc h
    rw [encode_input, h, Option.map_some']
  · rfl

/-- Witness for claim C4: the general selector-concatenation shape
applied at the `FunString` test vector. -/
theorem claim_C4_encode_selector_witness :
    encode_input ⟨[0xb0, 0xd9, 0x44, 0x19], [ParamType.string], []⟩
        [Token.string [0x74, 0x65, 0x73, 0x74]]
      = some ([0xb0, 0xd9, 0x44, 0x19]
          ++ (List.replicate 31 0 ++ [0x20] ++ (List.replicate 31 0 ++ [0x04])
            ++ ([0x74, 0x65, 0x73, 0x74] ++ List.replicate 28 0))) :=
  claim_C4_encode_selector.1 ⟨[0xb0, 0xd9, 0x44, 0x19], [ParamType.string], []⟩
    [Token.string [0x74, 0x65, 0x73, 0x74]] _ rfl

/-- Claim C5: `match_log` returns true exactly when the log's topics are
non-empty, topic 0 equals the event's full 32-byte signature hash, and
the topic count equals one plus the number of indexed parameters; in
particular it returns false whenever the topic count differs from
indexed-parameter count plus one, even if topic 0 matches. -/
theorem claim_C5_match_log (ev : AbiEvent) (log : Log) :
    (match_log ev log = true ↔
      log.topics ≠ [] ∧ log.topics.head? = some ev.topic0 ∧
        log.topics.length = 1 + indexedCount ev) ∧
    (log.topics.length ≠ 1 + indexedCount ev → match_log ev log = false) := by
  constructor
  · cases htop : log.topics with
    | nil => simp [match_log, htop]
    | cons t0 rest =>
      simp only [match_log, htop]
      simp only [Bool.and_eq_true, beq_iff_eq, List.head?_cons, List.length_cons,
        ne_eq, reduceCtorEq, not_false_eq_true, true_and, Option.some.injEq]
      constructor
      · rintro ⟨h1, h2⟩
        exact ⟨h1, by omega⟩
      · rintro ⟨h1, h2⟩
        exact ⟨h1, by omega⟩
  · intro hne
    cases htop : log.topics with
    | nil => simp [match_log, htop]
    | cons t0 rest =>
      rw [htop] at hne
      simp only [List.length_cons] at hne
      have hr : (rest.length == indexedCount ev) = false := by
        simp only [beq_eq_false_iff_ne, ne_eq]
        omega
      simp only [match_log, htop, hr, Bool.and_false]

/-- Witness for claim C5 at the `EventInt256Idx` descriptor: a log whose
only topic is the correct signature hash still fails to match, because
the event has one indexed parameter and thus requires two topics. -/
theorem claim_C5_match_log_witness :
    match_log
      ⟨[0x08, 0x4d, 0x6a, 0xa2, 0xa2, 0x48, 0x41, 0xfb, 0xa4, 0xbe, 0x2c, 0x27, 0xf3, 0xbe, 0x03, 0xe1, 0x9c, 0x31, 0x22, 0x65, 0xfd, 0x3e, 0x6a, 0x73, 0xe9, 0x2c, 0xe5, 0x8c, 0x20, 0x2a, 0x47, 0x27], [(ParamType.int 256, true)]⟩
      ⟨[[0x08, 0x4d, 0x6a, 0xa2, 0xa2, 0x48, 0x41, 0xfb, 0xa4, 0xbe, 0x2c, 0x27, 0xf3, 0xbe, 0x03, 0xe1, 0x9c, 0x31, 0x22, 0x65, 0xfd, 0x3e, 0x6a, 0x73, 0xe9, 0x2c, 0xe5, 0x8c, 0x20, 0x2a, 0x47, 0x27]], []⟩ = false :=
  (claim_C5_match_log _ _).2 (by decide)

/-- Claim C6: `match_call` returns true exactly when the call input has
length at least 4 and its first 4 bytes equal the function's selector;
`match_call` and `match_log` are total Boolean functions in this
embedding — a mismatch is reported as `false`, never as an error. -/
theorem claim_C6_match_call (f : AbiFunction) (call : Call) :
    match_call f call = true ↔
      4 ≤ call.input.length ∧ call.input.take 4 = f.selector := by
  by_cases h : 4 ≤ call.input.length <;> simp [match_call, h]

theorem encodeSeq_nil (hs tLen : Nat) (ts : List ParamType) :
    encodeSeq hs [] ts tLen = some ([], []) := rfl

theorem encodeSeq_addresses (arr : List (List Nat)) (hs tLen : Nat)
    (h20 : ∀ a ∈ arr, a.length = 20) :
    encodeSeq hs (arr.map Token.address) (List.replicate arr.length ParamType.address)
        tLen
      = some ((arr.map (fun a => List.replicate 12 0 ++ a)).flatten, []) := by
  induction arr with
  | nil => rfl
  | cons a arr ih =>
    have ha : a.length = 20 := h20 a (List.mem_cons_self ..)
    have ih2 := ih (fun x hx => h20 x (List.mem_cons_of_mem _ hx))
    simp only [List.map_cons, List.length_cons, List.replicate_succ]
    rw [encodeSeq, if_neg (by decide)]
    rw [show encodeValue (Token.address a) ParamType.address
      = some (List.replicate (32 - a.length) 0 ++ a) from rfl]
    rw [Option.some_bind, ih2, Option.map_some']
    simp [ha]

/-- Claim C7: when a `FixedArray[address;2]` argument is followed by a
dynamic `Array<address>` argument, the fixed array's two address words
are serialized inline in the head region, while the dynamic array is
represented in the head by a single offset word (96, the size of the
tuple's own head, measured from the start of the tuple's encoding)
pointing into the tail, where its count word and element words appear --
for any number of dynamic-array elements. -/
theorem claim_C7_head_tail_layout (a1 a2 : List Nat) (arr : List (List Nat))
    (h1 : a1.length = 20) (h2 : a2.length = 20) (h3 : ∀ a ∈ arr, a.length = 20) :
    encode_tuple
        [Token.fixedArray [Token.address a1, Token.address a2],
          Token.array (arr.map Token.address)]
        [ParamType.fixedArray ParamType.address 2, ParamType.array ParamType.address]
      = some ((List.replicate 12 0 ++ a1) ++ ((List.replicate 12 0 ++ a2)
          ++ (beBytes 32 96 ++ (beBytes 32 arr.length
            ++ (arr.map (fun a => List.replicate 12 0 ++ a)).flatten)))) := by
  rw [encode_tuple]
  rw [show headBytes [ParamType.fixedArray ParamType.address 2,
    ParamType.array ParamType.address] = 96 from rfl]
  rw [encodeSeq, if_neg (by decide)]
  rw [show encodeValue (Token.fixedArray [Token.address a1, Token.address a2])
      (ParamType.fixedArray ParamType.address 2)
    = (encodeSeq 64 [Token.address a1, Token.address a2]
        [ParamType.address, ParamType.address] 0).map (fun p => p.1 ++ p.2) from rfl]
  have hFA : encodeSeq 64 [Token.address a1, Token.address a2]
      [ParamType.address, ParamType.address] 0
      = some ((List.replicate (32 - a1.length) 0 ++ a1)
          ++ ((List.replicate (32 - a2.length) 0 ++ a2) ++ []), []) := by
    rw [encodeSeq, if_neg (by decide)]
    rw [show encodeValue (Token.address a1) ParamType.address
      = some (List.replicate (32 - a1.length) 0 ++ a1) from rfl, Option.some_bind]
    rw [encodeSeq, if_neg (by decide)]
    rw [show encodeValue (Token.address a2) ParamType.address
      = some (List.replicate (32 - a2.length) 0 ++ a2) from rfl, Option.some_bind]
    rw [encodeSeq_nil, Option.map_some', Option.map_some']
  rw [hFA, Option.map_some', Option.some_bind]
  rw [encodeSeq, if_pos (by decide)]
  rw [show encodeValue (Token.array (arr.map Token.address))
      (ParamType.array ParamType.address)
    = (encodeSeq (headBytes (List.replicate (arr.map Token.address).length
          ParamType.address))
        (arr.map Token.address)
        (List.replicate (arr.map Token.address).length ParamType.address) 0).map
        (fun p => beBytes 32 (arr.map Token.address).length ++ (p.1 ++ p.2)) from rfl]
  simp only [List.length_map]
  rw [encodeSeq_addresses arr (headBytes (List.replicate arr.length ParamType.address))
    0 h3]
  rw [Option.map_some', Option.some_bind, encodeSeq_nil, Option.map_some',
    Option.map_some']
  simp [h1, h2, List.append_assoc]

/-- Witness for claim C7 at the
`it_encode_fun_input_fixed_array_address_array_address` test vector: two
fixed addresses inline, offset word `0x60`, count word `3`, then the
three dynamic-array addresses. -/
theorem claim_C7_head_tail_layout_witness :
    encode_tuple
        [Token.fixedArray [Token.address [0xff, 0xfd, 0xb7, 0x37, 0x73, 0x45, 0x37, 0x18, 0x17, 0xf2, 0xb4, 0xdd, 0x49, 0x03, 0x19, 0x75, 0x5f, 0x58, 0x99, 0xec],
          Token.address [0xff, 0xfd, 0xb7, 0x37, 0x73, 0x45, 0x37, 0x18, 0x17, 0xf2, 0xb4, 0xdd, 0x49, 0x03, 0x19, 0x75, 0x5f, 0x58, 0x99, 0xeb]],
          Token.array [Token.address [0xaf, 0xfd, 0xb7, 0x37, 0x73, 0x45, 0x37, 0x18, 0x17, 0xf2, 0xb4, 0xdd, 0x49, 0x03, 0x19, 0x75, 0x5f, 0x58, 0x99, 0xec],
            Token.address [0xbf, 0xfd, 0xb7, 0x37, 0x73, 0x45, 0x37, 0x18, 0x17, 0xf2, 0xb4, 0xdd, 0x49, 0x03, 0x19, 0x75, 0x5f, 0x58, 0x99, 0xec],
            Token.address [0xcf, 0xfd, 0xb7, 0x37, 0x73, 0x45, 0x37, 0x18, 0x17, 0xf2, 0xb4, 0xdd, 0x49, 0x03, 0x19, 0x75, 0x5f, 0x58, 0x99, 0xec]]]
        [ParamType.fixedArray ParamType.address 2, ParamType.array ParamType.address]
      = some [0x00, 0x00, 0x00, 0x00, 0x00, 0x00, 0x00, 0x00, 0x00, 0x00, 0x00, 0x00, 0xff, 0xfd, 0xb7, 0x37, 0x73, 0x45, 0x37, 0x18, 0x17, 0xf2, 0xb4, 0xdd, 0x49, 0x03, 0x19, 0x75, 0x5f, 0x58, 0x99, 0xec, 0x00, 0x00, 0x00, 0x00, 0x00, 0x00, 0x00, 0x00, 0x00, 0x00, 0x00, 0x00, 0xff, 0xfd, 0xb7, 0x37, 0x73, 0x45, 0x37, 0x18, 0x17, 0xf2, 0xb4, 0xdd, 0x49, 0x03, 0x19, 0x75, 0x5f, 0x58, 0x99, 0xeb, 0x00, 0x00, 0x00, 0x00, 0x00, 0x00, 0x00, 0x00, 0x00, 0x00, 0x00, 0x00, 0x00, 0x00, 0x00, 0x00, 0x00, 0x00, 0x00, 0x00, 0x00, 0x00, 0x00, 0x00, 0x00, 0x00, 0x00, 0x00, 0x00, 0x00, 0x00, 0x60, 0x00, 0x00, 0x00, 0x00, 0x00, 0x00, 0x00, 0x00, 0x00, 0x00, 0x00, 0x00, 0x00, 0x00, 0x00, 0x00, 0x00, 0x00, 0x00, 0x00, 0x00, 0x00, 0x00, 0x00, 0x00, 0x00, 0x00, 0x00, 0x00, 0x00, 0x00, 0x03, 0x00, 0x00, 0x00, 0x00, 0x00, 0x00, 0x00, 0x00, 0x00, 0x00, 0x00, 0x00, 0xaf, 0xfd, 0xb7, 0x37, 0x73, 0x45, 0x37, 0x18, 0x17, 0xf2, 0xb4, 0xdd, 0x49, 0x03, 0x19, 0x75, 0x5f, 0x58, 0x99, 0xec, 0x00, 0x00, 0x00, 0x00, 0x00, 0x00, 0x00, 0x00, 0x00, 0x00, 0x00, 0x00, 0xbf, 0xfd, 0xb7, 0x37, 0x73, 0x45, 0x37, 0x18, 0x17, 0xf2, 0xb4, 0xdd, 0x49, 0x03, 0x19, 0x75, 0x5f, 0x58, 0x99, 0xec, 0x00, 0x00, 0x00, 0x00, 0x00, 0x00, 0x00, 0x00, 0x00, 0x00, 0x00, 0x00, 0xcf, 0xfd, 0xb7, 0x37, 0x73, 0x45, 0x37, 0x18, 0x17, 0xf2, 0xb4, 0xdd, 0x49, 0x03, 0x19, 0x75, 0x5f, 0x58, 0x99, 0xec] :=
  claim_C7_head_tail_layout [0xff, 0xfd, 0xb7, 0x37, 0x73, 0x45, 0x37, 0x18, 0x17, 0xf2, 0xb4, 0xdd, 0x49, 0x03, 0x19, 0x75, 0x5f, 0x58, 0x99, 0xec] [0xff, 0xfd, 0xb7, 0x37, 0x73, 0x45, 0x37, 0x18, 0x17, 0xf2, 0xb4, 0xdd, 0x49, 0x03, 0x19, 0x75, 0x5f, 0x58, 0x99, 0xeb]
    [[0xaf, 0xfd, 0xb7, 0x37, 0x73, 0x45, 0x37, 0x18, 0x17, 0xf2, 0xb4, 0xdd, 0x49, 0x03, 0x19, 0x75, 0x5f, 0x58, 0x99, 0xec], [0xbf, 0xfd, 0xb7, 0x37, 0x73, 0x45, 0x37, 0x18, 0x17, 0xf2, 0xb4, 0xdd, 0x49, 0x03, 0x19, 0x75, 0x5f, 0x58, 0x99, 0xec], [0xcf, 0xfd, 0xb7, 0x37, 0x73, 0x45, 0x37, 0x18, 0x17, 0xf2, 0xb4, 0xdd, 0x49, 0x03, 0x19, 0x75, 0x5f, 0x58, 0x99, 0xec]] rfl rfl (by decide)

/-- Claim C8: for an event with one indexed `address` parameter and one
non-indexed `string` parameter, `decode(log)` reads the indexed address
from the single 32-byte word `topics[1]` (right-aligned 20 address
bytes) and the string from the head/tail-encoded `log.data` (offset word
`0x20`, length word, padded content), yielding the address bytes and the
string in declaration order. -/
theorem claim_C8_event_decode (sig a s : List Nat) (ha : a.length = 20)
    (hs : s.length < 2 ^ 256) :
    decode_event ⟨sig, [(ParamType.address, true), (ParamType.string, false)]⟩
        ⟨[sig, List.replicate 12 0 ++ a],
          beBytes 32 32 ++ (beBytes 32 s.length ++ padTo32 s)⟩
      = some [Token.address a, Token.string s] := by
  rw [decode_event]
  rw [show ((([(ParamType.address, true), (ParamType.string, false)] :
      List (ParamType × Bool)).filter (fun p => !p.2)).map (fun p => p.1))
    = [ParamType.string] from rfl]
  have hdec : decode_tuple (beBytes 32 32 ++ (beBytes 32 s.length ++ padTo32 s))
      [ParamType.string] = some [Token.string s] := by
    rw [decode_tuple]
    rw [show reqList [ParamType.string] = 1 from rfl]
    rw [decodeSeqWith, if_pos (by decide)]
    have h1 : readBytes (beBytes 32 32 ++ (beBytes 32 s.length ++ padTo32 s)) 0 32
        = some (beBytes 32 32) := by
      simpa using readBytes_word [] (beBytes 32 32)
        (beBytes 32 s.length ++ padTo32 s) (beBytes_length 32 32)
    rw [h1, Option.some_bind, beValue_beBytes32 32 (by norm_num)]
    have h2 : readBytes (beBytes 32 32 ++ (beBytes 32 s.length ++ padTo32 s)) (0 + 32)
        32 = some (beBytes 32 s.length) := by
      have h := readBytes_word (beBytes 32 32) (beBytes 32 s.length) (padTo32 s)
        (beBytes_length 32 s.length)
      simpa [beBytes_length] using h
    rw [show decodeValue 1 (beBytes 32 32 ++ (beBytes 32 s.length ++ padTo32 s))
        (0 + 32) ParamType.string
      = (readBytes (beBytes 32 32 ++ (beBytes 32 s.length ++ padTo32 s)) (0 + 32)
          32).bind
          (fun lw => (readBytes (beBytes 32 32 ++ (beBytes 32 s.length ++ padTo32 s))
            (0 + 32 + 32) (beValue lw)).map Token.string) from rfl]
    rw [h2, Option.some_bind, beValue_beBytes32 _ hs]
    have h3 : readBytes (beBytes 32 32 ++ (beBytes 32 s.length ++ padTo32 s))
        (0 + 32 + 32) s.length = some s := by
      have h4 := readBytes_at (beBytes 32 32 ++ beBytes 32 s.length) (padTo32 s) []
        s.length (length_padTo32 s)
      rw [padTo32_take] at h4
      simpa [beBytes_length, List.append_assoc] using h4
    rw [h3, Option.map_some']
    rfl
  rw [hdec, Option.some_bind]
  rw [show (([sig, List.replicate 12 0 ++ a] : List (List Nat)).drop 1)
    = [List.replicate 12 0 ++ a] from rfl]
  have htop : decodeTopic ParamType.address (List.replicate 12 0 ++ a)
      = some (Token.address a) := by
    rw [decodeTopic, if_pos (by simp [ha]), if_neg (by decide)]
    simp only [decode_word]
    rw [List.drop_left' (by simp : (List.replicate 12 (0 : Nat)).length = 12)]
  rw [decode_event_params, htop, Option.some_bind]
  rw [show decode_event_params [(ParamType.string, false)] [] [Token.string s]
    = some [Token.string s] from rfl]
  rw [Option.map_some']

/-- Witness for claim C8 at the `it_decode_event_address_idx_string`
test vector: topics `[sigHash, 0x…ab07a5…f705]` and the data encoding of
`"second string"` decode to that address and that string. -/
theorem claim_C8_event_decode_witness :
    decode_event
        ⟨[0x3c, 0xdb, 0x31, 0x01, 0x71, 0xef, 0xa4, 0xc0, 0x86, 0x17, 0x53, 0x50, 0x44, 0x01, 0x6f, 0xb8, 0x1e, 0xc0, 0xa9, 0xdb, 0x46, 0x8c, 0x06, 0xb0, 0x08, 0xd2, 0xf4, 0x46, 0xee, 0x93, 0x46, 0xa8],
          [(ParamType.address, true), (ParamType.string, false)]⟩
        ⟨[[0x3c, 0xdb, 0x31, 0x01, 0x71, 0xef, 0xa4, 0xc0, 0x86, 0x17, 0x53, 0x50, 0x44, 0x01, 0x6f, 0xb8, 0x1e, 0xc0, 0xa9, 0xdb, 0x46, 0x8c, 0x06, 0xb0, 0x08, 0xd2, 0xf4, 0x46, 0xee, 0x93, 0x46, 0xa8], [0x00, 0x00, 0x00, 0x00, 0x00, 0x00, 0x00, 0x00, 0x00, 0x00, 0x00, 0x00, 0xab, 0x07, 0xa5, 0x0a, 0xd4, 0x59, 0xb4, 0x1f, 0xe0, 0x65, 0xf7, 0xbb, 0xab, 0x86, 0x6d, 0x53, 0x90, 0xe9, 0xf7, 0x05]], [0x00, 0x00, 0x00, 0x00, 0x00, 0x00, 0x00, 0x00, 0x00, 0x00, 0x00, 0x00, 0x00, 0x00, 0x00, 0x00, 0x00, 0x00, 0x00, 0x00, 0x00, 0x00, 0x00, 0x00, 0x00, 0x00, 0x00, 0x00, 0x00, 0x00, 0x00, 0x20, 0x00, 0x00, 0x00, 0x00, 0x00, 0x00, 0x00, 0x00, 0x00, 0x00, 0x00, 0x00, 0x00, 0x00, 0x00, 0x00, 0x00, 0x00, 0x00, 0x00, 0x00, 0x00, 0x00, 0x00, 0x00, 0x00, 0x00, 0x00, 0x00, 0x00, 0x00, 0x0d, 0x73, 0x65, 0x63, 0x6f, 0x6e, 0x64, 0x20, 0x73, 0x74, 0x72, 0x69, 0x6e, 0x67, 0x00, 0x00, 0x00, 0x00, 0x00, 0x00, 0x00, 0x00, 0x00, 0x00, 0x00, 0x00, 0x00, 0x00, 0x00, 0x00, 0x00, 0x00, 0x00]⟩
      = some [Token.address [0xab, 0x07, 0xa5, 0x0a, 0xd4, 0x59, 0xb4, 0x1f, 0xe0, 0x65, 0xf7, 0xbb, 0xab, 0x86, 0x6d, 0x53, 0x90, 0xe9, 0xf7, 0x05], Token.string [0x73, 0x65, 0x63, 0x6f, 0x6e, 0x64, 0x20, 0x73, 0x74, 0x72, 0x69, 0x6e, 0x67]] :=
  claim_C8_event_decode [0x3c, 0xdb, 0x31, 0x01, 0x71, 0xef, 0xa4, 0xc0, 0x86, 0x17, 0x53, 0x50, 0x44, 0x01, 0x6f, 0xb8, 0x1e, 0xc0, 0xa9, 0xdb, 0x46, 0x8c, 0x06, 0xb0, 0x08, 0xd2, 0xf4, 0x46, 0xee, 0x93, 0x46, 0xa8] [0xab, 0x07, 0xa5, 0x0a, 0xd4, 0x59, 0xb4, 0x1f, 0xe0, 0x65, 0xf7, 0xbb, 0xab, 0x86, 0x6d, 0x53, 0x90, 0xe9, 0xf7, 0x05] [0x73, 0x65, 0x63, 0x6f, 0x6e, 0x64, 0x20, 0x73, 0x74, 0x72, 0x69, 0x6e, 0x67] rfl (by decide)
